import Mathlib

/-!
Verification development for the `ciclo` training-loop example
(`examples/equinox/01_mnist_equinox.py`).

The repository ships a single example script that calls into the `ciclo`
library (`ciclo.loop`, `ciclo.every`, `ciclo.logs`, `history.collect`).
The library code itself is not part of the source tree given here, so the
loop driver, triggers, logs and history are modelled from the
specification; the script-level definitions (`State.apply_gradients`,
`train_step`) are shallow embeddings of the Python source, with the opaque
external collaborators (JAX, optax) abstracted as parameters.

Scalar metric values are modelled as rationals (the spec only requires a
numeric value type).
-/

namespace Ciclo

/-- Modelled from the spec: `Logs` is a per-step record of named scalar
metrics, a mapping from string metric name to numeric value, represented
as an association list built by `Logs.set`. -/
abbrev Logs := List (String × ℚ)

/-- The empty logs record. -/
def Logs.empty : Logs := []

/-- Modelled from the spec: writing a metric name overwrites an existing
binding of that name (value-level update), otherwise appends a new one. -/
def Logs.set (l : Logs) (k : String) (v : ℚ) : Logs :=
  if l.any (fun p => p.1 = k) then
    l.map (fun p => if p.1 = k then (k, v) else p)
  else
    l ++ [(k, v)]

/-- Look up a metric by name. -/
def Logs.get (l : Logs) (k : String) : Option ℚ :=
  (l.find? (fun p => p.1 = k)).map (fun p => p.2)

/-- Modelled from the spec: merging returned `Logs` into one per-step
record, last write wins per metric name on collision. -/
def Logs.merge (l1 l2 : Logs) : Logs :=
  l2.foldl (fun acc p => acc.set p.1 p.2) l1

/-- Source `logs.add_metric(name, value)`: adds a named scalar metric. -/
def Logs.add_metric (l : Logs) (k : String) (v : ℚ) : Logs :=
  l.set k v

/-- Source `ciclo.logs()`: creates a fresh empty logs record. -/
def logs : Logs := Logs.empty

/-- One history entry: the merged per-step logs together with the step
number at which they were recorded. -/
structure HistEntry where
  step : Nat
  logs : Logs
  deriving DecidableEq

/-- Modelled from the spec: `History` is an ordered, append-only sequence
of `Logs`, indexed by step number. -/
abbrev History := List HistEntry

/-- Modelled from the spec: history projection by metric name, one entry
per recorded step (source `history.collect(name)`). -/
def History.collect (h : History) (name : String) : List (Option ℚ) :=
  h.map (fun e => Logs.get e.logs name)

/-- Modelled from the spec: the special `"steps"` projection returning the
recorded step numbers (source `history.collect("steps", ...)`). -/
def History.collectSteps (h : History) : List Nat :=
  h.map (fun e => e.step)

/-- Modelled from the spec: a `Trigger` is a predicate over the current
step number. -/
abbrev Trigger := Nat → Bool

/-- Modelled from the spec: a callback receives the state threaded so far,
the current batch and the logs produced so far this step, and returns logs
to merge plus the new state. -/
abbrev Callback (σ β : Type) := σ → β → Logs → Logs × σ

/-- Modelled from the spec: an ordered list of (trigger, callback) pairs
evaluated in registration order each step. -/
abbrev TriggerTable (σ β : Type) := List (Trigger × Callback σ β)

/-- Source `ciclo.every(k)`: fires on every k-th step (steps count from 1,
so it fires at steps k, 2k, 3k, ...). -/
def every (k : Nat) : Trigger :=
  fun step => step % k == 0

/-- Modelled from the spec: the driver's error taxonomy; only
`IterationExhausted` is reachable in the integer-ceiling configuration
modelled here (callback and stop-predicate failures are collaborator
exceptions outside the pure embedding). -/
inductive DriverError where
  | iterationExhausted
  deriving DecidableEq

/-- Run the triggered callbacks of one step from an accumulator holding
the logs merged so far and the threaded state, strictly in table order. -/
def runCallbacksAux (table : TriggerTable σ β) (step : Nat) (b : β)
    (acc : Logs × σ) : Logs × σ :=
  table.foldl
    (fun acc tc =>
      if tc.1 step then
        (Logs.merge acc.1 (tc.2 acc.2 b acc.1).1, (tc.2 acc.2 b acc.1).2)
      else acc)
    acc

/-- Modelled from the spec: for the current step, invoke each callback
whose trigger holds, threading state through sequentially and merging
returned logs into one per-step record. -/
def runStepCallbacks (table : TriggerTable σ β) (step : Nat) (s : σ)
    (b : β) : Logs × σ :=
  runCallbacksAux table step b (Logs.empty, s)

/-- Modelled from the spec: append the merged per-step logs to history if
non-empty; a step producing no logs contributes no entry. -/
def appendEntry (hist : History) (step : Nat) (lgs : Logs) : History :=
  if lgs = Logs.empty then hist else hist ++ [⟨step, lgs⟩]

/-- What `ciclo.loop` returns: final state, history, last-seen logs, and
the elapsed number of step iterations performed (batches pulled). -/
structure RunResult (σ : Type) where
  state : σ
  history : History
  lastLogs : Logs
  steps : Nat
  deriving DecidableEq

/-- Modelled from the spec: the loop driver body. For step numbers
starting at `step`: if the inclusive integer ceiling is passed, return;
otherwise pull the batch for this step (failing with `IterationExhausted`
if the iterator yields none), run the triggered callbacks in table order,
append the merged logs to history if non-empty, and continue with the next
step. The data iterator is modelled as a function from step number to an
optional batch. -/
def loopAux (table : TriggerTable σ β) (stop : Nat) (data : Nat → Option β)
    (step : Nat) (s : σ) (hist : History) (last : Logs) (pulled : Nat) :
    Except DriverError (RunResult σ) :=
  if h : stop < step then
    Except.ok ⟨s, hist, last, pulled⟩
  else
    match data step with
    | none => Except.error DriverError.iterationExhausted
    | some b =>
      let r := runStepCallbacks table step s b
      loopAux table stop data (step + 1) r.2 (appendEntry hist step r.1)
        r.1 (pulled + 1)
termination_by stop + 1 - step
decreasing_by omega

/-- Modelled from the spec: `ciclo.loop(state, data, trigger_table, stop)`
with the integer step-ceiling form of `stop` (the form the example uses).
Steps are numbered from 1 and the ceiling is inclusive. -/
def loop (s₀ : σ) (data : Nat → Option β) (table : TriggerTable σ β)
    (stop : Nat) : Except DriverError (RunResult σ) :=
  loopAux table stop data 1 s₀ [] Logs.empty 0

/-!
Shallow embedding of the script-level definitions of
`examples/equinox/01_mnist_equinox.py`. The JAX/optax collaborators
(gradient computation, `optax.apply_updates`, the argmax-accuracy of the
logits) are opaque to the script's control flow and are abstracted as
parameters.
-/

/-- The optax gradient-transformation collaborator: an `init`/`update`
pair, where `update grads opt_state params` returns
`(updates, new_opt_state)`. -/
structure GradientTransformation (P O U : Type) where
  init : P → O
  update : U → O → P → U × O

/-- The script's `State` module: `params`, `opt_state`, and the static
field `tx`. -/
structure State (P O U : Type) where
  params : P
  opt_state : O
  tx : GradientTransformation P O U

/-- Source `State.create(params, tx)`: initializes `opt_state` with
`tx.init(params)`. -/
def State.create (params : P) (tx : GradientTransformation P O U) :
    State P O U :=
  ⟨params, tx.init params, tx⟩

/-- Source `State.apply_gradients(grads)`:
`updates, opt_state = self.tx.update(grads, self.opt_state, params=self.params)`,
`params = optax.apply_updates(self.params, updates)` (the opaque optax
collaborator is the parameter `applyUpdates`), then
`dataclasses.replace(self, params=params, opt_state=opt_state)`. -/
def State.apply_gradients (applyUpdates : P → U → P) (self : State P O U)
    (grads : U) : State P O U :=
  let u := self.tx.update grads self.opt_state self.params
  { self with params := applyUpdates self.params u.1, opt_state := u.2 }

/-- A batch as consumed by `train_step`: `batch["image"]` and
`batch["label"]`. -/
structure Batch (I L : Type) where
  image : I
  label : L

/-- The opaque JAX collaborators inside `train_step`: the loss/logits of
`loss_fn`, the gradients of `jax.value_and_grad`, the argmax-accuracy
computation, and `optax.apply_updates`. -/
structure TrainOps (P U G I L : Type) where
  lossAndLogits : P → I → L → ℚ × G
  gradsOf : P → I → L → U
  accuracyOf : G → L → ℚ
  applyUpdates : P → U → P

/-- Source `train_step(state, batch)`: computes loss, logits and
gradients from the current params, applies the gradients to obtain the
new state, and returns a logs record with the metrics `"loss"` and
`"accuracy"` together with the new state. -/
def train_step (ops : TrainOps P U G I L) (state : State P O U)
    (batch : Batch I L) : Logs × State P O U :=
  let inputs := batch.image
  let labels := batch.label
  let vl := ops.lossAndLogits state.params inputs labels
  let grads := ops.gradsOf state.params inputs labels
  let state2 := State.apply_gradients ops.applyUpdates state grads
  let lgs := (Ciclo.logs.add_metric "loss" vl.1).add_metric "accuracy"
    (ops.accuracyOf vl.2 labels)
  (lgs, state2)

/-!
Association-list lemmas about `Logs`.
-/

theorem Logs.set_ne_empty (l : Logs) (k : String) (v : ℚ) :
    Logs.set l k v ≠ Logs.empty := by
  unfold Logs.set
  cases hany : l.any (fun p => p.1 = k) with
  | false =>
    rw [if_neg (by simp [hany])]
    simp [Logs.empty]
  | true =>
    rw [if_pos (by simp [hany])]
    cases l with
    | nil => simp at hany
    | cons p t => simp [Logs.empty]

theorem Logs.find?_set_map (l : Logs) (k : String) (v : ℚ)
    (hany : l.any (fun p => p.1 = k) = true) :
    (l.map (fun p => if p.1 = k then (k, v) else p)).find?
      (fun p => p.1 = k) = some (k, v) := by
  induction l with
  | nil => simp at hany
  | cons p t ih =>
    by_cases hp : p.1 = k
    · rw [List.map_cons, if_pos hp]
      rw [List.find?_cons_of_pos _ (by simp)]
    · rw [List.map_cons, if_neg hp]
      rw [List.find?_cons_of_neg _ (by simp [hp])]
      apply ih
      simpa [hp] using hany

theorem Logs.find?_set_map_ne (l : Logs) (k : String) (v : ℚ) (n : String)
    (hne : n ≠ k) :
    (l.map (fun p => if p.1 = k then (k, v) else p)).find?
      (fun p => p.1 = n) = l.find? (fun p => p.1 = n) := by
  induction l with
  | nil => rfl
  | cons p t ih =>
    rw [List.map_cons]
    by_cases hp : p.1 = n
    · have hpk : ¬ p.1 = k := fun h => hne (hp ▸ h)
      rw [if_neg hpk]
      rw [List.find?_cons_of_pos _ (by simp [hp]),
        List.find?_cons_of_pos _ (by simp [hp])]
    · by_cases hpk : p.1 = k
      · rw [if_pos hpk]
        rw [List.find?_cons_of_neg _ (by simp; exact fun h => hne h.symm),
          List.find?_cons_of_neg _ (by simp [hp])]
        exact ih
      · rw [if_neg hpk]
        rw [List.find?_cons_of_neg _ (by simp [hp]),
          List.find?_cons_of_neg _ (by simp [hp])]
        exact ih

theorem Logs.get_set_self (l : Logs) (k : String) (v : ℚ) :
    Logs.get (Logs.set l k v) k = some v := by
  unfold Logs.set Logs.get
  cases hany : l.any (fun p => p.1 = k) with
  | false =>
    rw [if_neg (by simp [hany])]
    rw [List.find?_append]
    have hnone : l.find? (fun p => p.1 = k) = none := by
      rw [List.find?_eq_none]
      intro x hx
      have := (List.any_eq_false.mp hany) x hx
      simpa using this
    rw [hnone]
    rw [List.find?_cons_of_pos _ (by simp)]
    rfl
  | true =>
    rw [if_pos (by simp [hany])]
    rw [Logs.find?_set_map l k v hany]
    rfl

theorem Logs.get_set_ne (l : Logs) (k : String) (v : ℚ) (n : String)
    (hne : n ≠ k) :
    Logs.get (Logs.set l k v) n = Logs.get l n := by
  unfold Logs.set Logs.get
  cases hany : l.any (fun p => p.1 = k) with
  | false =>
    rw [if_neg (by simp [hany])]
    rw [List.find?_append]
    have hlast : List.find? (fun p => p.1 = n) [(k, v)] = none := by
      rw [List.find?_eq_none]
      intro x hx
      simp at hx
      simp [hx]
      exact fun h => hne h.symm
    rw [hlast, Option.or_none]
  | true =>
    rw [if_pos (by simp [hany])]
    rw [Logs.find?_set_map_ne l k v n hne]

theorem Logs.get_cons (p : String × ℚ) (t : Logs) (n : String) :
    Logs.get (p :: t) n = if p.1 = n then some p.2 else Logs.get t n := by
  unfold Logs.get
  by_cases hp : p.1 = n
  · rw [List.find?_cons_of_pos _ (by simp [hp]), if_pos hp]
    rfl
  · rw [List.find?_cons_of_neg _ (by simp [hp]), if_neg hp]

theorem Logs.foldl_set_ne_empty (l2 : Logs) (acc : Logs)
    (hacc : acc ≠ Logs.empty) :
    l2.foldl (fun a p => Logs.set a p.1 p.2) acc ≠ Logs.empty := by
  induction l2 generalizing acc with
  | nil => exact hacc
  | cons p t ih =>
    rw [List.foldl_cons]
    exact ih _ (Logs.set_ne_empty acc p.1 p.2)

theorem Logs.merge_ne_empty (l1 l2 : Logs) (h : l2 ≠ Logs.empty) :
    Logs.merge l1 l2 ≠ Logs.empty := by
  cases l2 with
  | nil => exact absurd rfl h
  | cons p t =>
    unfold Logs.merge
    rw [List.foldl_cons]
    exact Logs.foldl_set_ne_empty t _ (Logs.set_ne_empty l1 p.1 p.2)

theorem Logs.get_foldl_set_not_mem (l2 : Logs) (acc : Logs) (n : String)
    (h : ∀ p ∈ l2, p.1 ≠ n) :
    Logs.get (l2.foldl (fun a p => Logs.set a p.1 p.2) acc) n =
      Logs.get acc n := by
  induction l2 generalizing acc with
  | nil => rfl
  | cons p t ih =>
    rw [List.foldl_cons]
    rw [ih _ (fun q hq => h q (List.mem_cons_of_mem p hq))]
    exact Logs.get_set_ne acc p.1 p.2 n
      (fun hc => h p (List.mem_cons_self p t) hc.symm)

theorem Logs.get_merge_of_get (l1 l2 : Logs) (n : String) (v : ℚ)
    (hnd : (l2.map Prod.fst).Nodup) (h : Logs.get l2 n = some v) :
    Logs.get (Logs.merge l1 l2) n = some v := by
  induction l2 generalizing l1 with
  | nil => simp [Logs.get] at h
  | cons p t ih =>
    unfold Logs.merge
    rw [List.foldl_cons]
    rw [Logs.get_cons] at h
    by_cases hp : p.1 = n
    · rw [if_pos hp] at h
      have ht : ∀ q ∈ t, q.1 ≠ n := by
        intro q hq hc
        rw [List.map_cons, List.nodup_cons] at hnd
        exact hnd.1 (hp ▸ hc ▸ List.mem_map_of_mem Prod.fst hq)
      rw [Logs.get_foldl_set_not_mem t _ n ht]
      rw [hp, Logs.get_set_self]
      exact h
    · rw [if_neg hp] at h
      have hnd2 : (t.map Prod.fst).Nodup := by
        rw [List.map_cons, List.nodup_cons] at hnd
        exact hnd.2
      exact ih (Logs.set l1 p.1 p.2) hnd2 h

/-!
Unfolding lemmas for the loop driver.
-/

theorem loopAux_stop (table : TriggerTable σ β) (stop : Nat)
    (data : Nat → Option β) (step : Nat) (s : σ) (hist : History)
    (last : Logs) (pulled : Nat) (h : stop < step) :
    loopAux table stop data step s hist last pulled =
      Except.ok ⟨s, hist, last, pulled⟩ := by
  rw [loopAux]
  rw [dif_pos h]

theorem loopAux_go (table : TriggerTable σ β) (stop : Nat)
    (data : Nat → Option β) (step : Nat) (s : σ) (hist : History)
    (last : Logs) (pulled : Nat) (b : β) (h : ¬ stop < step)
    (hb : data step = some b) :
    loopAux table stop data step s hist last pulled =
      loopAux table stop data (step + 1) (runStepCallbacks table step s b).2
        (appendEntry hist step (runStepCallbacks table step s b).1)
        (runStepCallbacks table step s b).1 (pulled + 1) := by
  rw [loopAux]
  rw [dif_neg h, hb]

theorem loopAux_exhaust (table : TriggerTable σ β) (stop : Nat)
    (data : Nat → Option β) (step : Nat) (s : σ) (hist : History)
    (last : Logs) (pulled : Nat) (h : ¬ stop < step)
    (hb : data step = none) :
    loopAux table stop data step s hist last pulled =
      Except.error DriverError.iterationExhausted := by
  rw [loopAux]
  rw [dif_neg h, hb]

/-!
Invariant lemmas for the loop driver, by induction on the number of
remaining steps.
-/

theorem loopAux_ok_of_unbounded (table : TriggerTable σ β) (stop : Nat)
    (data : Nat → Option β) (hdata : ∀ i, (data i).isSome = true) :
    ∀ (d step : Nat), d = stop + 1 - step →
      ∀ (s : σ) (hist : History) (last : Logs) (pulled : Nat),
      ∃ r, loopAux table stop data step s hist last pulled = Except.ok r ∧
        r.steps = pulled + (stop + 1 - step) := by
  intro d
  induction d with
  | zero =>
    intro step hd s hist last pulled
    have hlt : stop < step := by omega
    refine ⟨⟨s, hist, last, pulled⟩, loopAux_stop _ _ _ _ _ _ _ _ hlt, ?_⟩
    simp only
    omega
  | succ d ih =>
    intro step hd s hist last pulled
    have hle : ¬ stop < step := by omega
    obtain ⟨b, hb⟩ := Option.isSome_iff_exists.mp (hdata step)
    rw [loopAux_go table stop data step s hist last pulled b hle hb]
    obtain ⟨r, hr, hsteps⟩ := ih (step + 1) (by omega) _ _ _ (pulled + 1)
    exact ⟨r, hr, by omega⟩

theorem loopAux_exhausted_before_stop (table : TriggerTable σ β)
    (stop : Nat) (data : Nat → Option β) :
    ∀ (d step : Nat), d = stop + 1 - step →
      (∃ i, step ≤ i ∧ i ≤ stop ∧ data i = none) →
      ∀ (s : σ) (hist : History) (last : Logs) (pulled : Nat),
      loopAux table stop data step s hist last pulled =
        Except.error DriverError.iterationExhausted := by
  intro d
  induction d with
  | zero =>
    intro step hd hex s hist last pulled
    obtain ⟨i, hi1, hi2, _⟩ := hex
    omega
  | succ d ih =>
    intro step hd hex s hist last pulled
    have hle : ¬ stop < step := by omega
    cases hb : data step with
    | none => exact loopAux_exhaust _ _ _ _ _ _ _ _ hle hb
    | some b =>
      rw [loopAux_go _ _ _ _ _ _ _ _ b hle hb]
      apply ih (step + 1) (by omega)
      obtain ⟨i, hi1, hi2, hi3⟩ := hex
      have hne : i ≠ step := by
        intro hc
        rw [hc, hb] at hi3
        cases hi3
      exact ⟨i, by omega, hi2, hi3⟩

theorem loopAux_congr_data (table : TriggerTable σ β) (stop : Nat)
    (data1 data2 : Nat → Option β) :
    ∀ (d step : Nat), d = stop + 1 - step →
      (∀ i, step ≤ i → i ≤ stop → data1 i = data2 i) →
      ∀ (s : σ) (hist : History) (last : Logs) (pulled : Nat),
      loopAux table stop data1 step s hist last pulled =
        loopAux table stop data2 step s hist last pulled := by
  intro d
  induction d with
  | zero =>
    intro step hd hag s hist last pulled
    have hlt : stop < step := by omega
    rw [loopAux_stop _ _ _ _ _ _ _ _ hlt, loopAux_stop _ _ _ _ _ _ _ _ hlt]
  | succ d ih =>
    intro step hd hag s hist last pulled
    have hle : ¬ stop < step := by omega
    have heq : data1 step = data2 step := hag step (le_refl step) (by omega)
    cases hb : data2 step with
    | none =>
      rw [loopAux_exhaust _ _ data1 _ _ _ _ _ hle (heq.trans hb),
        loopAux_exhaust _ _ data2 _ _ _ _ _ hle hb]
    | some b =>
      rw [loopAux_go _ _ data1 _ _ _ _ _ b hle (heq.trans hb),
        loopAux_go _ _ data2 _ _ _ _ _ b hle hb]
      exact ih (step + 1) (by omega)
        (fun i hi1 hi2 => hag i (by omega) hi2) _ _ _ _

theorem runCallbacksAux_quiet (table : TriggerTable σ β) (step : Nat)
    (b : β) (h : ∀ tc ∈ table, tc.1 step = false) :
    ∀ acc : Logs × σ, runCallbacksAux table step b acc = acc := by
  induction table with
  | nil => intro acc; rfl
  | cons tc rest ih =>
    intro acc
    unfold runCallbacksAux
    rw [List.foldl_cons]
    rw [if_neg (by rw [h tc (List.mem_cons_self tc rest)]; simp)]
    exact ih (fun q hq => h q (List.mem_cons_of_mem tc hq)) acc

theorem loopAux_hist_prefix (table : TriggerTable σ β) (stop : Nat)
    (data : Nat → Option β) :
    ∀ (d step : Nat), d = stop + 1 - step →
      ∀ (s : σ) (hist : History) (last : Logs) (pulled : Nat)
        (r : RunResult σ),
      loopAux table stop data step s hist last pulled = Except.ok r →
      (∃ t, r.history = hist ++ t) ∧
        r.history.length ≤ hist.length + (stop + 1 - step) := by
  intro d
  induction d with
  | zero =>
    intro step hd s hist last pulled r hr
    have hlt : stop < step := by omega
    rw [loopAux_stop _ _ _ _ _ _ _ _ hlt] at hr
    injection hr with hr
    subst hr
    exact ⟨⟨[], by simp⟩, Nat.le_add_right _ _⟩
  | succ d ih =>
    intro step hd s hist last pulled r hr
    have hle : ¬ stop < step := by omega
    cases hb : data step with
    | none =>
      rw [loopAux_exhaust _ _ _ _ _ _ _ _ hle hb] at hr
      exact Except.noConfusion hr
    | some b =>
      rw [loopAux_go _ _ _ _ _ _ _ _ b hle hb] at hr
      obtain ⟨⟨t, ht⟩, hlen⟩ := ih (step + 1) (by omega) _ _ _ _ r hr
      unfold appendEntry at ht hlen
      by_cases hempty : (runStepCallbacks table step s b).1 = Logs.empty
      · rw [if_pos hempty] at ht hlen
        exact ⟨⟨t, ht⟩, by omega⟩
      · rw [if_neg hempty] at ht hlen
        refine ⟨⟨⟨step, (runStepCallbacks table step s b).1⟩ :: t, ?_⟩, ?_⟩
        · rw [ht, List.append_assoc]
          rfl
        · rw [List.length_append] at hlen
          simp only [List.length_singleton] at hlen
          omega

theorem loopAux_every_count (k : Nat) (cb : Callback σ β)
    (stop : Nat) (data : Nat → Option β)
    (hdata : ∀ i, (data i).isSome = true)
    (hcb : ∀ (s : σ) (b : β) (l : Logs), (cb s b l).1 ≠ Logs.empty) :
    ∀ (d step : Nat), d = stop + 1 - step → 1 ≤ step →
      ∀ (s : σ) (hist : History) (last : Logs) (pulled : Nat),
      ∃ r, loopAux [(every k, cb)] stop data step s hist last pulled =
          Except.ok r ∧
        r.history.length = hist.length + (stop / k - (step - 1) / k) := by
  intro d
  induction d with
  | zero =>
    intro step hd hstep s hist last pulled
    have hlt : stop < step := by omega
    refine ⟨⟨s, hist, last, pulled⟩, loopAux_stop _ _ _ _ _ _ _ _ hlt, ?_⟩
    have hdiv : stop / k ≤ (step - 1) / k := Nat.div_le_div_right (by omega)
    simp only
    omega
  | succ d ih =>
    intro step hd hstep s hist last pulled
    have hle : ¬ stop < step := by omega
    obtain ⟨b, hb⟩ := Option.isSome_iff_exists.mp (hdata step)
    rw [loopAux_go _ _ _ _ _ _ _ _ b hle hb]
    have hdivle : step / k ≤ stop / k := Nat.div_le_div_right (by omega)
    have hsucc : step / k = (step - 1) / k + if k ∣ step then 1 else 0 := by
      have h1 : step - 1 + 1 = step := by omega
      have := Nat.succ_div (step - 1) k
      rw [h1] at this
      exact this
    by_cases hdiv : step % k = 0
    · have hfire : every k step = true := by simp [every, hdiv]
      have hmerged : runStepCallbacks [(every k, cb)] step s b =
          (Logs.merge Logs.empty (cb s b Logs.empty).1,
            (cb s b Logs.empty).2) := by
        simp [runStepCallbacks, runCallbacksAux, hfire]
      have hne : (runStepCallbacks [(every k, cb)] step s b).1 ≠
          Logs.empty := by
        rw [hmerged]
        exact Logs.merge_ne_empty _ _ (hcb s b Logs.empty)
      obtain ⟨r, hr, hlen⟩ := ih (step + 1) (by omega) (by omega) _ _ _
        (pulled + 1)
      refine ⟨r, hr, ?_⟩
      rw [hlen]
      unfold appendEntry
      rw [if_neg hne, List.length_append]
      have hif : step / k = (step - 1) / k + 1 := by
        rw [hsucc, if_pos (Nat.dvd_of_mod_eq_zero hdiv)]
      simp only [List.length_singleton, Nat.add_sub_cancel]
      omega
    · have hfire : every k step = false := by simp [every, hdiv]
      have hmerged : runStepCallbacks [(every k, cb)] step s b =
          (Logs.empty, s) := by
        simp [runStepCallbacks, runCallbacksAux, hfire]
      obtain ⟨r, hr, hlen⟩ := ih (step + 1) (by omega) (by omega) _ _ _
        (pulled + 1)
      refine ⟨r, hr, ?_⟩
      rw [hlen]
      unfold appendEntry
      rw [hmerged]
      rw [if_pos rfl]
      have hif : step / k = (step - 1) / k := by
        rw [hsucc, if_neg (fun hc => hdiv (Nat.mod_eq_zero_of_dvd hc))]
        omega
      simp only [Nat.add_sub_cancel]
      omega

/-!
The claims.
-/

/-- Claim C1: for every integer step ceiling N ≥ 0, calling the loop
driver with stop = N on an unbounded data source performs exactly N step
iterations, pulling exactly N batches; the ceiling is inclusive (steps
1 through N are executed) and the loop halts exactly at step N. -/
theorem loop_ceiling_pulls_exactly (s₀ : σ) (N : Nat)
    (data : Nat → Option β) (table : TriggerTable σ β)
    (hdata : ∀ i, (data i).isSome = true) :
    ∃ r, loop s₀ data table N = Except.ok r ∧ r.steps = N := by
  obtain ⟨r, hr, hsteps⟩ :=
    loopAux_ok_of_unbounded table N data hdata N 1 rfl s₀ [] Logs.empty 0
  exact ⟨r, hr, by omega⟩

/-- Witness for C1: with an unbounded constant source and ceiling 3, the
run succeeds having pulled exactly 3 batches. -/
theorem loop_ceiling_pulls_exactly_witness :
    ∃ r, loop (0 : Nat) (fun _ => some ()) ([] : TriggerTable Nat Unit) 3 =
        Except.ok r ∧ r.steps = 3 :=
  loop_ceiling_pulls_exactly 0 3 (fun _ => some ()) [] (fun _ => rfl)

/-- Claim C2: if the data iterator is exhausted (yields no batch) at some
step i with 1 ≤ i ≤ N before the stop ceiling N is met, the driver fails
with IterationExhausted; the `Except.error` result carries no final state
and no history, so there is no partial silent success. -/
theorem loop_exhausted_error (s₀ : σ) (N : Nat) (data : Nat → Option β)
    (table : TriggerTable σ β) (i : Nat) (h1 : 1 ≤ i) (h2 : i ≤ N)
    (h3 : data i = none) :
    loop s₀ data table N = Except.error DriverError.iterationExhausted :=
  loopAux_exhausted_before_stop table N data N 1 rfl ⟨i, h1, h2, h3⟩ s₀ []
    Logs.empty 0

/-- Witness for C2: a source that dries up after step 1 under ceiling 3
makes the run fail with IterationExhausted. -/
theorem loop_exhausted_error_witness :
    loop (0 : Nat) (fun j => if j ≤ 1 then some () else none)
        ([] : TriggerTable Nat Unit) 3 =
      Except.error DriverError.iterationExhausted :=
  loop_exhausted_error 0 3 (fun j => if j ≤ 1 then some () else none) [] 2
    (by decide) (by decide) (by decide)

/-- Claim C3: projecting a history by a metric name yields a sequence of
the same length as the history (so projections by any set of names all
have equal length, one entry per recorded step, aligned to the step at
which it was recorded), and zipping the recorded step numbers with the
projection reconstructs the original per-step logs for that metric. -/
theorem collect_roundtrip (h : History) (n : String) :
    (History.collect h n).length = h.length ∧
    (History.collectSteps h).length = h.length ∧
    (History.collectSteps h).zip (History.collect h n) =
      h.map (fun e => (e.step, Logs.get e.logs n)) := by
  refine ⟨?_, ?_, ?_⟩
  · simp [History.collect]
  · simp [History.collectSteps]
  · unfold History.collectSteps History.collect
    rw [List.zip_map']

/-- Claim C4: with a trigger table whose single entry fires on every k-th
step (k ≥ 1) and whose callback always produces logs, a run with ceiling
N over an unbounded source produces exactly ⌊N / k⌋ history entries. -/
theorem loop_every_k_count (s₀ : σ) (N k : Nat) (hk : 1 ≤ k)
    (cb : Callback σ β) (data : Nat → Option β)
    (hdata : ∀ i, (data i).isSome = true)
    (hcb : ∀ (s : σ) (b : β) (l : Logs), (cb s b l).1 ≠ Logs.empty) :
    ∃ r, loop s₀ data [(every k, cb)] N = Except.ok r ∧
      r.history.length = N / k := by
  obtain ⟨r, hr, hlen⟩ := loopAux_every_count k cb N data hdata hcb N 1 rfl
    (le_refl 1) s₀ [] Logs.empty 0
  refine ⟨r, hr, ?_⟩
  rw [hlen]
  simp

/-- Witness for C4: every(2) under ceiling 5 with an always-logging
callback records exactly 2 = ⌊5 / 2⌋ history entries. -/
theorem loop_every_k_count_witness :
    ∃ r, loop (0 : Nat) (fun _ => some ())
        [(every 2, fun s _ _ => ([("m", (1 : ℚ))], s))] 5 = Except.ok r ∧
      r.history.length = 5 / 2 :=
  loop_every_k_count 0 5 2 (by decide)
    (fun s _ _ => ([("m", (1 : ℚ))], s)) (fun _ => some ()) (fun _ => rfl)
    (fun s b l => by simp [Logs.empty])

/-- Claim C5: within a single step, when two triggered callbacks write a
metric under the same name, the merged per-step logs hold the value
written by the last callback to write that name (last write wins); the
hypothesis names the value the second callback writes, given the logs and
state it observes from the first. -/
theorem last_write_wins (t1 t2 : Trigger) (cb1 cb2 : Callback σ β)
    (step : Nat) (s : σ) (b : β) (n : String) (v : ℚ)
    (h1 : t1 step = true) (h2 : t2 step = true)
    (hnd : (((cb2 (cb1 s b Logs.empty).2 b
        (Logs.merge Logs.empty (cb1 s b Logs.empty).1)).1).map
        Prod.fst).Nodup)
    (hv : Logs.get (cb2 (cb1 s b Logs.empty).2 b
        (Logs.merge Logs.empty (cb1 s b Logs.empty).1)).1 n = some v) :
    Logs.get (runStepCallbacks [(t1, cb1), (t2, cb2)] step s b).1 n =
      some v := by
  have hrun : runStepCallbacks [(t1, cb1), (t2, cb2)] step s b =
      (Logs.merge (Logs.merge Logs.empty (cb1 s b Logs.empty).1)
          (cb2 (cb1 s b Logs.empty).2 b
            (Logs.merge Logs.empty (cb1 s b Logs.empty).1)).1,
        (cb2 (cb1 s b Logs.empty).2 b
          (Logs.merge Logs.empty (cb1 s b Logs.empty).1)).2) := by
    simp [runStepCallbacks, runCallbacksAux, h1, h2]
  rw [hrun]
  exact Logs.get_merge_of_get _ _ n v hnd hv

/-- Witness for C5: two always-firing callbacks both writing `"m"`; the
merged logs hold the second value, 2. -/
theorem last_write_wins_witness :
    Logs.get (runStepCallbacks
        [((fun _ => true), fun (s : Unit) (_ : Unit) _ => ([("m", (1 : ℚ))], s)),
          ((fun _ => true), fun s _ _ => ([("m", (2 : ℚ))], s))] 1 () ()).1
      "m" = some 2 :=
  last_write_wins (fun _ => true) (fun _ => true)
    (fun s _ _ => ([("m", (1 : ℚ))], s)) (fun s _ _ => ([("m", (2 : ℚ))], s))
    1 () () "m" 2 rfl rfl (by simp) (by rfl)

/-- Claim C6: the driver itself is deterministic: two runs with the same
initial state, the same trigger table and the same ceiling N, over data
sources that agree on every step 1..N (in particular two runs over the
very same deterministic source), return identical results, hence
identical histories. -/
theorem loop_deterministic (s₀ : σ) (N : Nat)
    (data1 data2 : Nat → Option β) (table : TriggerTable σ β)
    (hag : ∀ i, 1 ≤ i → i ≤ N → data1 i = data2 i) :
    loop s₀ data1 table N = loop s₀ data2 table N :=
  loopAux_congr_data table N data1 data2 N 1 rfl hag s₀ [] Logs.empty 0

/-- Witness for C6: a constant source and a source differing only at the
never-pulled index 0 give identical runs under ceiling 2. -/
theorem loop_deterministic_witness :
    loop (0 : Nat) (fun _ => some ()) ([] : TriggerTable Nat Unit) 2 =
      loop (0 : Nat) (fun i => if i = 0 then none else some ())
        ([] : TriggerTable Nat Unit) 2 :=
  loop_deterministic 0 2 (fun _ => some ())
    (fun i => if i = 0 then none else some ()) []
    (fun i hi1 _ => by
      show some () = if i = 0 then none else some ()
      rw [if_neg (by omega)])

/-- Claim C7: within a step the triggered callbacks run strictly
sequentially in the trigger table's iteration order: running a
concatenated table equals running the first part and continuing the
second from its output, and a single entry transforms the accumulated
(logs, state) by merging its callback's output computed from exactly that
accumulated logs and state (no parallelism across callbacks). -/
theorem callbacks_sequential (t1 t2 : TriggerTable σ β) (step : Nat)
    (b : β) (acc : Logs × σ) (trig : Trigger) (cb : Callback σ β) :
    runCallbacksAux (t1 ++ t2) step b acc =
      runCallbacksAux t2 step b (runCallbacksAux t1 step b acc) ∧
    runCallbacksAux [(trig, cb)] step b acc =
      (if trig step then
        (Logs.merge acc.1 (cb acc.2 b acc.1).1, (cb acc.2 b acc.1).2)
      else acc) := by
  constructor
  · unfold runCallbacksAux
    exact List.foldl_append _ _ t1 t2
  · unfold runCallbacksAux
    rw [List.foldl_cons, List.foldl_nil]

/-- Claim C8: the history is append-only: any successful continuation of
the loop returns a history extending the incoming one (existing entries
are never modified or removed), the history grows by at most one entry
per remaining step, appending empty per-step logs leaves the history
unchanged, and a step at which no trigger fires produces empty merged
logs (hence contributes no entry). -/
theorem history_append_only (table : TriggerTable σ β) (stop : Nat)
    (data : Nat → Option β) (step : Nat) (s : σ) (hist : History)
    (last : Logs) (pulled : Nat) (r : RunResult σ) (b : β)
    (hr : loopAux table stop data step s hist last pulled = Except.ok r) :
    (∃ t, r.history = hist ++ t) ∧
      r.history.length ≤ hist.length + (stop + 1 - step) ∧
      appendEntry hist step Logs.empty = hist ∧
      ((∀ tc ∈ table, tc.1 step = false) →
        (runStepCallbacks table step s b).1 = Logs.empty) := by
  obtain ⟨hpre, hlen⟩ := loopAux_hist_prefix table stop data
    (stop + 1 - step) step rfl s hist last pulled r hr
  refine ⟨hpre, hlen, ?_, ?_⟩
  · unfold appendEntry
    rw [if_pos rfl]
  · intro hq
    unfold runStepCallbacks
    rw [runCallbacksAux_quiet table step b hq (Logs.empty, s)]

/-- Witness for C8: a concrete mid-run continuation (two remaining steps,
empty table, non-empty incoming history) whose result keeps the incoming
history intact. -/
theorem history_append_only_witness :
    (∃ t, (⟨0, [⟨5, [("a", (1 : ℚ))]⟩], Logs.empty, 2⟩ :
        RunResult Nat).history = [⟨5, [("a", (1 : ℚ))]⟩] ++ t) ∧
      (⟨0, [⟨5, [("a", (1 : ℚ))]⟩], Logs.empty, 2⟩ :
        RunResult Nat).history.length ≤
        ([⟨5, [("a", (1 : ℚ))]⟩] : History).length + (2 + 1 - 1) ∧
      appendEntry [⟨5, [("a", (1 : ℚ))]⟩] 1 Logs.empty =
        [⟨5, [("a", (1 : ℚ))]⟩] ∧
      ((∀ tc ∈ ([] : TriggerTable Nat Unit), tc.1 1 = false) →
        (runStepCallbacks ([] : TriggerTable Nat Unit) 1 0 ()).1 =
          Logs.empty) :=
  history_append_only [] 2 (fun _ => some ()) 1 0 [⟨5, [("a", (1 : ℚ))]⟩]
    Logs.empty 0 ⟨0, [⟨5, [("a", (1 : ℚ))]⟩], Logs.empty, 2⟩ ()
    (by
      rw [loopAux_go _ _ _ _ _ _ _ _ () (by decide) rfl]
      rw [loopAux_go _ _ _ _ _ _ _ _ () (by decide) rfl]
      rw [loopAux_stop _ _ _ _ _ _ _ _ (by decide)]
      rfl)

/-- Claim C9: `State.apply_gradients` returns a new `State` whose static
field `tx` is unchanged and which differs from the input at most in the
`params` and `opt_state` fields; the input state is a pure value and is
not mutated. -/
theorem apply_gradients_frame (applyUpdates : P → U → P)
    (s : State P O U) (g : U) :
    (State.apply_gradients applyUpdates s g).tx = s.tx ∧
    State.apply_gradients applyUpdates s g =
      { s with params := (State.apply_gradients applyUpdates s g).params,
               opt_state :=
                 (State.apply_gradients applyUpdates s g).opt_state } :=
  ⟨rfl, rfl⟩

/-- Claim C10: every invocation of `train_step` returns a logs record
containing exactly the metric names `"loss"` and `"accuracy"`, in that
order and nothing else, together with the new state obtained by applying
the gradients. -/
theorem train_step_logs (ops : TrainOps P U G I L) (s : State P O U)
    (b : Batch I L) :
    ((train_step ops s b).1).map Prod.fst = ["loss", "accuracy"] ∧
    (train_step ops s b).2 =
      State.apply_gradients ops.applyUpdates s
        (ops.gradsOf s.params b.image b.label) := by
  constructor
  · rfl
  · rfl

end Ciclo
